import Mathlib

/-!
# Verification of the load-balancing and task-orchestration core of `proximity`

Shallow embedding of the core of the `proximity` layer-4 reverse proxy:
the sampler strategies and upstream selection (`src/upstream/sampler.rs`,
`src/upstream/mod.rs`), the host health window (`Host::failed`), the signal
broadcast channel (`src/signal.rs`, a `tokio::sync::watch` wrapper), and the
`WaitFor` task-orchestration combinator (`src/utils.rs`).

Machine integers (`usize`, `u16`, `u8`) are modelled as `Nat`; `time::Instant`
and `time::Duration` as `Nat` clock ticks; fallible constructors as `Except`;
panics (`unwrap`, `unreachable!`) as distinguished outcomes.
-/

namespace Proximity

variable {α : Type} {S : Type}

/-! ### Sampler strategies (src/upstream/sampler.rs) -/

/-- Error type of `RoundRobinSampler::new`. -/
inductive RoundRobinSamplerError where
  | ZeroLength
deriving DecidableEq

/-- `RoundRobinSampler { iter: iter::Cycle<ops::Range<usize>> }`: the cyclic
iterator over `0..length` is represented by the range bound `length` and the
`cursor` position of the inner range iterator (`cursor = length` means the
inner range is exhausted and the next call wraps around). -/
structure RoundRobinSampler where
  length : Nat
  cursor : Nat
deriving DecidableEq

/-- `RoundRobinSampler::new`: rejects `length = 0`, otherwise starts the
cycle `(0..length).cycle()` at cursor 0. -/
def RoundRobinSampler.new (length : Nat) :
    Except RoundRobinSamplerError RoundRobinSampler :=
  match length with
  | 0 => .error .ZeroLength
  | _ => .ok { length := length, cursor := 0 }

/-- One call of `self.iter.next()` inside `RoundRobinSampler::sample`.
`none` models the `None` case (possible only for an empty range), on which
the source calls `.unwrap()` and would panic. -/
def RoundRobinSampler.sampleOpt (s : RoundRobinSampler) :
    Option (Nat × RoundRobinSampler) :=
  if s.cursor < s.length then
    some (s.cursor, { s with cursor := s.cursor + 1 })
  else if s.length = 0 then
    none
  else
    some (0, { s with cursor := 1 })

/-- Calling `sample()` in a loop `k` times, collecting the produced indices
and the final sampler state (the loop stops early if the unwrap inside
`sample` would panic, which never happens for `length ≥ 1`). -/
def RoundRobinSampler.run (s : RoundRobinSampler) :
    Nat → List Nat × RoundRobinSampler
  | 0 => ([], s)
  | k + 1 =>
    match s.sampleOpt with
    | none => ([], s)
    | some (i, s') =>
      let r := s'.run k
      (i :: r.1, r.2)

/-- `rand::distributions::WeightedError` (variants as in the rand crate). -/
inductive WeightedError where
  | NoItem
  | InvalidWeight
  | AllWeightsZero
  | TooMany
deriving DecidableEq

/-- Modelled from rand's `WeightedIndex` with `usize` weights, the collaborator
used by `WeightedSampler`: it keeps the weights (rand keeps their cumulative
sums) and the total weight. -/
structure WeightedIndex where
  weights : List Nat
  total_weight : Nat
deriving DecidableEq

/-- Modelled from rand's `WeightedIndex::new`: an empty weight list is
rejected with `NoItem`, a zero total with `AllWeightsZero`; `InvalidWeight`
(a negative weight) cannot occur for unsigned weights. -/
def WeightedIndex.new (weights : List Nat) :
    Except WeightedError WeightedIndex :=
  match weights with
  | [] => .error .NoItem
  | _ =>
    if weights.sum = 0 then .error .AllWeightsZero
    else .ok { weights := weights, total_weight := weights.sum }

/-- The index whose cumulative weight interval contains `x`: the search done
by rand's `WeightedIndex::sample` over cumulative weights, written as a
linear scan (extensionally the same function). -/
def pick : List Nat → Nat → Nat
  | [], _ => 0
  | w :: ws, x => if x < w then 0 else pick ws (x - w) + 1

/-- `WeightedIndex::sample`, with `x` the value the rng draws uniformly from
`[0, total_weight)`. -/
def WeightedIndex.sample (d : WeightedIndex) (x : Nat) : Nat :=
  pick d.weights x

/-- `WeightedSampler { dist, rng }`; the rng is modelled by passing the drawn
value to `sample` explicitly. -/
structure WeightedSampler where
  dist : WeightedIndex
deriving DecidableEq

/-- `WeightedSampler::new`: builds the `WeightedIndex`, propagating its
error with `?`. -/
def WeightedSampler.new (weights : List Nat) :
    Except WeightedError WeightedSampler :=
  match WeightedIndex.new weights with
  | .error e => .error e
  | .ok d => .ok { dist := d }

/-- `Sampler for WeightedSampler`: sample from the stored distribution. -/
def WeightedSampler.sample (s : WeightedSampler) (x : Nat) : Nat :=
  s.dist.sample x

/-! ### Host (src/upstream/mod.rs) -/

/-- `Host`.  The `fails` min-heap (`BinaryHeap<Reverse<Instant>>`) is
modelled by the list of its timestamps in ascending order, the order in which
the heap pops them; pushing the current timestamp appends at the tail, which
is where the heap would yield it, `Instant::now()` being monotone. -/
structure Host where
  hostname : String
  port : Nat
  ipv6 : Bool
  weight : Nat
  max_fails : Nat
  max_conns : Nat
  fail_timeout : Nat
  fails : List Nat
  last_fail : Nat
deriving DecidableEq

/-- `Host::new`, with `now` the construction-time `Instant::now()`. -/
def Host.new (hostname : String) (port : Nat) (now : Nat) : Host where
  hostname := hostname
  port := port
  ipv6 := false
  weight := 1
  max_fails := 1
  max_conns := 1024
  fail_timeout := 30
  fails := []
  last_fail := now

/-- The pruning loop of `Host::failed`: pop failure timestamps from the top
of the min-heap while they are older than the cutoff `now - fail_timeout`. -/
def pruneFails : List Nat → Nat → List Nat
  | [], _ => []
  | t :: ts, cutoff => if t < cutoff then pruneFails ts cutoff else t :: ts

/-- `Host::failed`, with `now` the current `Instant::now()` (instant minus
duration is truncated at the clock origin). -/
def Host.failed (h : Host) (now : Nat) : Host :=
  { h with
    fails := pruneFails h.fails (now - h.fail_timeout) ++ [now],
    last_fail := now }

/-- `impl PartialEq for Host`: configuration identity over
(hostname, port, weight, max_fails, fail_timeout). -/
def Host.eq (a b : Host) : Bool :=
  a.hostname == b.hostname && a.port == b.port && a.weight == b.weight
    && a.max_fails == b.max_fails && a.fail_timeout == b.fail_timeout

/-- Reporting a sequence of failures at the given (monotone) clock times. -/
def Host.failedSeq (h : Host) (times : List Nat) : Host :=
  times.foldl Host.failed h

/-! ### Resolver collaborator and Upstream (src/resolver.rs, src/upstream/mod.rs) -/

/-- `trust_dns_resolver::error::ResolveError` (abstract). -/
inductive ResolveError where
  | error
deriving DecidableEq

/-- An IPv4 address (the only shape the upstream core produces). -/
inductive IpAddr where
  | v4 (a b c d : Nat)
deriving DecidableEq

/-- `net::SocketAddr`. -/
structure SocketAddr where
  ip : IpAddr
  port : Nat
deriving DecidableEq

/-- The `Resolver` collaborator: `resolve` maps a hostname to IP addresses or
fails.  Its body in the source is a stub, so it is kept abstract as a
function field. -/
structure Resolver where
  resolveFn : String → Except ResolveError (List IpAddr)

/-- `UpstreamError` has no variants in the source: no upstream error value
can ever be produced. -/
inductive UpstreamError where

/-- `UpstreamImpl<S>`. -/
structure UpstreamImpl (S : Type) where
  hosts : List Host
  resolver : Resolver
  sampler : S

/-- `UpstreamImpl::resolve` as written in the source: it ignores both the
`host` argument and the `resolver` field and returns the fixed address
`127.0.0.1`. -/
def UpstreamImpl.resolve (u : UpstreamImpl S) (host : String) :
    Except UpstreamError IpAddr :=
  .ok (IpAddr.v4 127 0 0 1)

/-- Outcome of one `UpstreamImpl::next` call: a socket address, or one of
the two panics in its body (`unwrap` of the sampler iterator's `None`, or
the `unreachable!` index-out-of-range branch). -/
inductive NextResult where
  | ok (addr : SocketAddr)
  | panickedUnwrapNone
  | panickedOutOfRange
deriving DecidableEq

/-- `UpstreamImpl::next` (round-robin instance): draw an index from the
sampler (mutating it), look the host up, `resolve` and unwrap, and build a
socket address from the returned IP and the host's configured port. -/
def UpstreamImpl.next (u : UpstreamImpl RoundRobinSampler) :
    NextResult × UpstreamImpl RoundRobinSampler :=
  match u.sampler.sampleOpt with
  | none => (.panickedUnwrapNone, u)
  | some (i, sampler') =>
    let u' := { u with sampler := sampler' }
    match u.hosts.get? i with
    | some host =>
      match u'.resolve host.hostname with
      | .ok ip => (.ok { ip := ip, port := host.port }, u')
      | .error e => nomatch e
    | none => (.panickedOutOfRange, u')

/-! ### Signal broadcast (src/signal.rs) -/

/-- `Signal`. -/
inductive Signal where
  | Init
  | Stop
  | Reload
deriving DecidableEq

/-- The shared slot of the `tokio::sync::watch` channel backing the signal
broadcast: the current value plus a version counter bumped on each send. -/
structure WatchState where
  value : Signal
  version : Nat
deriving DecidableEq

/-- `Sender::send`: replace the current value, bump the version. -/
def send (c : WatchState) (sig : Signal) : WatchState :=
  { value := sig, version := c.version + 1 }

/-- A receiver tracks the last channel version it observed. -/
structure Receiver where
  seen : Nat
deriving DecidableEq

/-- `Receiver::receive`: `changed().await` completes once the channel
version differs from the receiver's marker (otherwise the call suspends,
modelled as `none`); then the current value is returned and the marker
updated. -/
def receive (c : WatchState) (r : Receiver) : Option (Signal × Receiver) :=
  if r.seen < c.version then some (c.value, { seen := c.version }) else none

/-- `signaler()`: a fresh channel holding `Init`, and a receiver which has
already observed the initial value. -/
def signaler : WatchState × Receiver :=
  ({ value := Signal.Init, version := 0 }, { seen := 0 })

/-! ### Task-orchestration combinator (src/utils.rs) -/

/-- `std::task::Poll`. -/
inductive Poll (α : Type) where
  | Ready (val : α)
  | Pending
deriving DecidableEq

/-- A managed task, modelled as a deterministic future: `fuel` is the number
of polls left before the future completes with `val`. -/
structure SFuture (α : Type) where
  fuel : Nat
  val : α
deriving DecidableEq

/-- Polling an `SFuture`. -/
def SFuture.poll (f : SFuture α) : Poll α × SFuture α :=
  match f.fuel with
  | 0 => (.Ready f.val, f)
  | n + 1 => (.Pending, { fuel := n, val := f.val })

/-- `FutureState<F>`: a completed result or the still-running future. -/
inductive FutureState (α : Type) where
  | Ready (out : α)
  | Pending (fut : SFuture α)
deriving DecidableEq

/-- `Strategy`. -/
inductive Strategy where
  | Any
  | All
deriving DecidableEq

/-- `WaitFor<F>`. -/
structure WaitFor (α : Type) where
  strategy : Strategy
  future_states : List (FutureState α)
deriving DecidableEq

/-- The body of the `for` loop inside `WaitFor::poll` for one entry: a
`Ready` entry is kept, a `Pending` entry is polled and transitions in place
to `Ready` when its future completes. -/
def stepState : FutureState α → FutureState α
  | .Ready out => .Ready out
  | .Pending fut =>
    match fut.poll with
    | (.Ready res, _) => .Ready res
    | (.Pending, fut') => .Pending fut'

def isReady : FutureState α → Bool
  | .Ready _ => true
  | .Pending _ => false

/-- `ready_cnt` after the polling loop: the number of `Ready` entries. -/
def readyCnt (l : List (FutureState α)) : Nat :=
  l.countP isReady

/-- `WaitFor::poll`: poll every pending entry in place, then resolve with
the whole snapshot (emptying `future_states`, as `mem::replace` does) if the
strategy's condition is met, else stay pending. -/
def WaitFor.poll (w : WaitFor α) : Poll (List (FutureState α)) × WaitFor α :=
  let states := w.future_states.map stepState
  if (w.strategy = Strategy.Any ∧ 0 < readyCnt states)
      ∨ (w.strategy = Strategy.All ∧ readyCnt states = states.length) then
    (.Ready states, { strategy := w.strategy, future_states := [] })
  else
    (.Pending, { strategy := w.strategy, future_states := states })

/-- `WaitFor::cease`: hand the snapshot back without waiting further. -/
def WaitFor.cease (w : WaitFor α) : List (FutureState α) :=
  w.future_states

/-- `AsFutureStates for Vec<F>`: wrap plain futures as pending states.
(The `Vec<FutureState<F>>` instance is the identity.) -/
def as_futures_states (futs : List (SFuture α)) : List (FutureState α) :=
  futs.map FutureState.Pending

/-- `wait_for`, over an already-converted list of states. -/
def wait_for (states : List (FutureState α)) (strategy : Strategy) : WaitFor α :=
  { future_states := states, strategy := strategy }

/-- `wait_for_all`. -/
def wait_for_all (states : List (FutureState α)) : WaitFor α :=
  wait_for states Strategy.All

/-- `wait_for_any`. -/
def wait_for_any (states : List (FutureState α)) : WaitFor α :=
  wait_for states Strategy.Any

/-- Poll the combinator up to `k` times, returning the snapshot it resolves
with, or `none` if it is still pending after `k` polls. -/
def WaitFor.pollN (w : WaitFor α) : Nat → Option (List (FutureState α))
  | 0 => none
  | k + 1 =>
    match w.poll with
    | (.Ready l, _) => some l
    | (.Pending, w') => w'.pollN k

/-! ### Analysis helpers for the combinator -/

/-- The number of combinator polls a state needs before it is `Ready`:
0 for an already-`Ready` entry, `fuel + 1` for a pending future. -/
def stateFuel : FutureState α → Nat
  | .Ready _ => 0
  | .Pending fut => fut.fuel + 1

/-- The value a state carries (its result, or its future's eventual result). -/
def stateVal : FutureState α → α
  | .Ready out => out
  | .Pending fut => fut.val

/-- The state a given entry reaches after `k` combinator polls. -/
def advanceState (k : Nat) : FutureState α → FutureState α
  | .Ready out => .Ready out
  | .Pending fut =>
    if fut.fuel + 1 ≤ k then .Ready fut.val
    else .Pending { fuel := fut.fuel - k, val := fut.val }

/-- Largest `stateFuel` in the list (0 for the empty list). -/
def maxFuelL (l : List (FutureState α)) : Nat :=
  l.foldr (fun s acc => max (stateFuel s) acc) 0

/-- Fold computing a minimum of state fuels with a seed. -/
def minFold (rest : List (FutureState α)) (i : Nat) : Nat :=
  rest.foldr (fun t acc => min (stateFuel t) acc) i

/-- Smallest `stateFuel` in a nonempty list (0 for the empty list). -/
def minFuelL : List (FutureState α) → Nat
  | [] => 0
  | s :: rest => minFold rest (stateFuel s)

/-- The poll count at which an `All` combinator over `l` resolves. -/
def needAll (l : List (FutureState α)) : Nat :=
  max 1 (maxFuelL l)

/-- The poll count at which an `Any` combinator over a nonempty `l`
resolves. -/
def needAny (l : List (FutureState α)) : Nat :=
  max 1 (minFuelL l)

/-- The snapshot an `Any` combinator over `tasks` resolves with: every entry
advanced by the number of polls until the first completion. -/
def anySnapshot (tasks : List (SFuture α)) : List (FutureState α) :=
  (as_futures_states tasks).map
    (advanceState (needAny (as_futures_states tasks)))

/-! ### Lemmas about the combinator model -/

theorem advanceState_zero (s : FutureState α) : advanceState 0 s = s := by
  cases s with
  | Ready out => rfl
  | Pending fut => simp [advanceState]

theorem stepState_eq_advance_one (s : FutureState α) :
    stepState s = advanceState 1 s := by
  cases s with
  | Ready out => rfl
  | Pending fut =>
    cases hf : fut.fuel with
    | zero => simp [stepState, SFuture.poll, advanceState, hf]
    | succ n => simp [stepState, SFuture.poll, advanceState, hf]

theorem stepState_funext :
    (stepState : FutureState α → FutureState α) = advanceState 1 :=
  funext stepState_eq_advance_one

theorem advance_succ (k : Nat) (s : FutureState α) :
    advanceState (k + 1) s = advanceState k (stepState s) := by
  cases s with
  | Ready out => rfl
  | Pending fut =>
    cases hf : fut.fuel with
    | zero => simp [stepState, SFuture.poll, advanceState, hf]
    | succ n =>
      simp only [stepState, SFuture.poll, hf, advanceState]
      by_cases h : n + 1 ≤ k
      · rw [if_pos (by omega : n + 1 + 1 ≤ k + 1), if_pos h]
      · rw [if_neg (by omega : ¬ n + 1 + 1 ≤ k + 1), if_neg h]
        simp [Nat.succ_sub_succ]

theorem advance_add (a b : Nat) (s : FutureState α) :
    advanceState a (advanceState b s) = advanceState (b + a) s := by
  cases s with
  | Ready out => rfl
  | Pending fut =>
    simp only [advanceState]
    by_cases h1 : fut.fuel + 1 ≤ b
    · rw [if_pos h1, if_pos (by omega : fut.fuel + 1 ≤ b + a)]
    · rw [if_neg h1]
      simp only [advanceState]
      by_cases h2 : fut.fuel - b + 1 ≤ a
      · rw [if_pos h2, if_pos (by omega : fut.fuel + 1 ≤ b + a)]
      · rw [if_neg h2, if_neg (by omega : ¬ fut.fuel + 1 ≤ b + a)]
        simp only [FutureState.Pending.injEq, SFuture.mk.injEq]
        refine ⟨by omega, ?_⟩
        trivial

theorem stateFuel_advance (m : Nat) (s : FutureState α) :
    stateFuel (advanceState m s) = stateFuel s - m := by
  cases s with
  | Ready out => simp [advanceState, stateFuel]
  | Pending fut =>
    simp only [advanceState]
    split_ifs with h
    · simp only [stateFuel]
      omega
    · simp only [stateFuel]
      omega

theorem advance_of_fuel_le (m : Nat) (s : FutureState α) (h : stateFuel s ≤ m) :
    advanceState m s = .Ready (stateVal s) := by
  cases s with
  | Ready out => rfl
  | Pending fut =>
    simp only [stateFuel] at h
    simp [advanceState, stateVal, h]

theorem isReady_iff (s : FutureState α) : isReady s = true ↔ stateFuel s = 0 := by
  cases s <;> simp [isReady, stateFuel]

theorem readyCnt_eq_length_iff (l : List (FutureState α)) :
    readyCnt l = l.length ↔ ∀ s ∈ l, stateFuel s = 0 := by
  rw [readyCnt, List.countP_eq_length]
  simp [isReady_iff]

theorem readyCnt_pos_iff (l : List (FutureState α)) :
    0 < readyCnt l ↔ ∃ s ∈ l, stateFuel s = 0 := by
  rw [readyCnt, List.countP_pos_iff]
  simp [isReady_iff]

theorem max_sub_right (a b m : Nat) : max (a - m) (b - m) = max a b - m := by
  rcases Nat.le_total a b with h | h
  · rw [Nat.max_eq_right h, Nat.max_eq_right (Nat.sub_le_sub_right h m)]
  · rw [Nat.max_eq_left h, Nat.max_eq_left (Nat.sub_le_sub_right h m)]

theorem min_sub_right (a b m : Nat) : min (a - m) (b - m) = min a b - m := by
  rcases Nat.le_total a b with h | h
  · rw [Nat.min_eq_left h, Nat.min_eq_left (Nat.sub_le_sub_right h m)]
  · rw [Nat.min_eq_right h, Nat.min_eq_right (Nat.sub_le_sub_right h m)]

theorem maxFuelL_cons (s : FutureState α) (rest : List (FutureState α)) :
    maxFuelL (s :: rest) = max (stateFuel s) (maxFuelL rest) := rfl

theorem maxFuelL_le_iff (l : List (FutureState α)) (j : Nat) :
    maxFuelL l ≤ j ↔ ∀ s ∈ l, stateFuel s ≤ j := by
  induction l with
  | nil => simp [maxFuelL]
  | cons s rest ih => simp [maxFuelL_cons, Nat.max_le, ih]

theorem mem_le_maxFuelL (l : List (FutureState α)) (s : FutureState α)
    (hs : s ∈ l) : stateFuel s ≤ maxFuelL l :=
  (maxFuelL_le_iff l (maxFuelL l)).mp (Nat.le_refl _) s hs

theorem maxFuelL_map_advance (m : Nat) (l : List (FutureState α)) :
    maxFuelL (l.map (advanceState m)) = maxFuelL l - m := by
  induction l with
  | nil => simp [maxFuelL]
  | cons s rest ih =>
    simp only [List.map_cons, maxFuelL_cons, ih, stateFuel_advance]
    exact max_sub_right _ _ m

theorem minFold_nil (i : Nat) : minFold ([] : List (FutureState α)) i = i := rfl

theorem minFold_cons (t : FutureState α) (rest : List (FutureState α)) (i : Nat) :
    minFold (t :: rest) i = min (stateFuel t) (minFold rest i) := rfl

theorem minFold_le_iff (rest : List (FutureState α)) (i j : Nat) :
    minFold rest i ≤ j ↔ i ≤ j ∨ ∃ t ∈ rest, stateFuel t ≤ j := by
  induction rest with
  | nil => simp [minFold_nil]
  | cons t ts ih =>
    simp only [minFold_cons, min_le_iff, ih, List.mem_cons]
    constructor
    · rintro (h | h | ⟨x, hx, hxj⟩)
      · exact Or.inr ⟨t, Or.inl rfl, h⟩
      · exact Or.inl h
      · exact Or.inr ⟨x, Or.inr hx, hxj⟩
    · rintro (h | ⟨x, hx | hx, hxj⟩)
      · exact Or.inr (Or.inl h)
      · exact Or.inl (hx ▸ hxj)
      · exact Or.inr (Or.inr ⟨x, hx, hxj⟩)

theorem minFold_cases (rest : List (FutureState α)) (i : Nat) :
    minFold rest i = i ∨ ∃ t ∈ rest, minFold rest i = stateFuel t := by
  induction rest with
  | nil => exact Or.inl rfl
  | cons u ts ih =>
    rcases Nat.le_total (stateFuel u) (minFold ts i) with h | h
    · exact Or.inr ⟨u, List.mem_cons_self u ts, by rw [minFold_cons, Nat.min_eq_left h]⟩
    · rw [minFold_cons, Nat.min_eq_right h]
      rcases ih with h2 | ⟨t, ht, h2⟩
      · exact Or.inl h2
      · exact Or.inr ⟨t, List.mem_cons_of_mem u ht, h2⟩

theorem minFold_sub (rest : List (FutureState α)) (i m : Nat) :
    minFold (rest.map (advanceState m)) (i - m) = minFold rest i - m := by
  induction rest with
  | nil => rfl
  | cons t ts ih =>
    simp only [List.map_cons, minFold_cons, stateFuel_advance, ih]
    exact min_sub_right _ _ m

theorem minFuelL_le_iff (l : List (FutureState α)) (hne : l ≠ []) (j : Nat) :
    minFuelL l ≤ j ↔ ∃ s ∈ l, stateFuel s ≤ j := by
  cases l with
  | nil => exact absurd rfl hne
  | cons s rest =>
    simp only [minFuelL, minFold_le_iff, List.mem_cons]
    constructor
    · rintro (h | ⟨t, ht, htj⟩)
      · exact ⟨s, Or.inl rfl, h⟩
      · exact ⟨t, Or.inr ht, htj⟩
    · rintro ⟨t, rfl | ht, htj⟩
      · exact Or.inl htj
      · exact Or.inr ⟨t, ht, htj⟩

theorem minFuelL_map_advance (m : Nat) (l : List (FutureState α)) :
    minFuelL (l.map (advanceState m)) = minFuelL l - m := by
  cases l with
  | nil => simp [minFuelL]
  | cons s rest =>
    simp only [List.map_cons, minFuelL, stateFuel_advance]
    exact minFold_sub rest (stateFuel s) m

theorem minFuelL_attained (l : List (FutureState α)) (hne : l ≠ []) :
    ∃ s ∈ l, stateFuel s = minFuelL l := by
  cases l with
  | nil => exact absurd rfl hne
  | cons s rest =>
    simp only [minFuelL]
    rcases minFold_cases rest (stateFuel s) with h | ⟨t, ht, h⟩
    · exact ⟨s, List.mem_cons_self s rest, h.symm⟩
    · exact ⟨t, List.mem_cons_of_mem s ht, h.symm⟩

theorem stepState_map (l : List (FutureState α)) :
    l.map stepState = l.map (advanceState 1) := by
  rw [stepState_funext]

theorem cond_all_iff (l : List (FutureState α)) :
    readyCnt (l.map stepState) = (l.map stepState).length ↔ maxFuelL l ≤ 1 := by
  rw [stepState_map, readyCnt_eq_length_iff, maxFuelL_le_iff]
  constructor
  · intro h s hs
    have h2 := h (advanceState 1 s) (List.mem_map_of_mem _ hs)
    rw [stateFuel_advance] at h2
    omega
  · intro h s hs
    rcases List.mem_map.mp hs with ⟨t, ht, rfl⟩
    rw [stateFuel_advance]
    have h2 := h t ht
    omega

theorem cond_any_iff (l : List (FutureState α)) (hne : l ≠ []) :
    0 < readyCnt (l.map stepState) ↔ minFuelL l ≤ 1 := by
  rw [stepState_map, readyCnt_pos_iff, minFuelL_le_iff l hne]
  constructor
  · rintro ⟨s, hs, h⟩
    rcases List.mem_map.mp hs with ⟨t, ht, rfl⟩
    rw [stateFuel_advance] at h
    exact ⟨t, ht, by omega⟩
  · rintro ⟨t, ht, h⟩
    refine ⟨advanceState 1 t, List.mem_map_of_mem _ ht, ?_⟩
    rw [stateFuel_advance]
    omega

theorem poll_all_eval (l : List (FutureState α)) :
    WaitFor.poll { strategy := Strategy.All, future_states := l } =
      if maxFuelL l ≤ 1 then
        (Poll.Ready (l.map stepState),
          { strategy := Strategy.All, future_states := [] })
      else
        (Poll.Pending,
          { strategy := Strategy.All, future_states := l.map stepState }) := by
  have hiff : ((Strategy.All = Strategy.Any ∧ 0 < readyCnt (l.map stepState))
      ∨ (Strategy.All = Strategy.All
          ∧ readyCnt (l.map stepState) = (l.map stepState).length))
      ↔ maxFuelL l ≤ 1 := by
    constructor
    · rintro (⟨hs, _⟩ | ⟨_, hcnt⟩)
      · exact Strategy.noConfusion hs
      · exact (cond_all_iff l).mp hcnt
    · intro h
      exact Or.inr ⟨rfl, (cond_all_iff l).mpr h⟩
  show (if (Strategy.All = Strategy.Any ∧ 0 < readyCnt (l.map stepState))
      ∨ (Strategy.All = Strategy.All
          ∧ readyCnt (l.map stepState) = (l.map stepState).length) then
        (Poll.Ready (l.map stepState),
          ({ strategy := Strategy.All, future_states := [] } : WaitFor α))
      else
        (Poll.Pending,
          ({ strategy := Strategy.All,
              future_states := l.map stepState } : WaitFor α))) = _
  exact if_congr hiff rfl rfl

theorem poll_any_eval (l : List (FutureState α)) (hne : l ≠ []) :
    WaitFor.poll { strategy := Strategy.Any, future_states := l } =
      if minFuelL l ≤ 1 then
        (Poll.Ready (l.map stepState),
          { strategy := Strategy.Any, future_states := [] })
      else
        (Poll.Pending,
          { strategy := Strategy.Any, future_states := l.map stepState }) := by
  have hiff : ((Strategy.Any = Strategy.Any ∧ 0 < readyCnt (l.map stepState))
      ∨ (Strategy.Any = Strategy.All
          ∧ readyCnt (l.map stepState) = (l.map stepState).length))
      ↔ minFuelL l ≤ 1 := by
    constructor
    · rintro (⟨_, hcnt⟩ | ⟨hs, _⟩)
      · exact (cond_any_iff l hne).mp hcnt
      · exact Strategy.noConfusion hs
    · intro h
      exact Or.inl ⟨rfl, (cond_any_iff l hne).mpr h⟩
  show (if (Strategy.Any = Strategy.Any ∧ 0 < readyCnt (l.map stepState))
      ∨ (Strategy.Any = Strategy.All
          ∧ readyCnt (l.map stepState) = (l.map stepState).length) then
        (Poll.Ready (l.map stepState),
          ({ strategy := Strategy.Any, future_states := [] } : WaitFor α))
      else
        (Poll.Pending,
          ({ strategy := Strategy.Any,
              future_states := l.map stepState } : WaitFor α))) = _
  exact if_congr hiff rfl rfl

theorem poll_any_nil :
    WaitFor.poll
        { strategy := Strategy.Any,
          future_states := ([] : List (FutureState α)) } =
      (Poll.Pending, { strategy := Strategy.Any, future_states := [] }) := by
  simp [WaitFor.poll, readyCnt]

theorem pollN_succ (w : WaitFor α) (k : Nat) :
    w.pollN (k + 1) =
      match w.poll with
      | (.Ready l, _) => some l
      | (.Pending, w') => w'.pollN k := rfl

theorem pollN_all (k : Nat) :
    ∀ l : List (FutureState α),
      WaitFor.pollN { strategy := Strategy.All, future_states := l } k =
        if needAll l ≤ k then some (l.map (advanceState (needAll l)))
        else none := by
  induction k with
  | zero =>
    intro l
    have h1 : 1 ≤ needAll l := le_max_left 1 _
    rw [if_neg (by omega)]
    rfl
  | succ k ih =>
    intro l
    rw [pollN_succ, poll_all_eval]
    by_cases h : maxFuelL l ≤ 1
    · rw [if_pos h]
      show some (l.map stepState) = _
      have hm : needAll l = 1 := by
        rw [needAll, Nat.max_eq_left h]
      rw [stepState_map, hm, if_pos (by omega : (1 : Nat) ≤ k + 1)]
    · rw [if_neg h]
      show WaitFor.pollN
          { strategy := Strategy.All,
            future_states := l.map stepState } k = _
      rw [ih (l.map stepState)]
      have hM : 2 ≤ maxFuelL l := by omega
      have h1 : maxFuelL (l.map stepState) = maxFuelL l - 1 := by
        rw [stepState_map, maxFuelL_map_advance]
      have h2 : needAll (l.map stepState) = maxFuelL l - 1 := by
        rw [needAll, h1, Nat.max_eq_right (by omega)]
      have h3 : needAll l = maxFuelL l := by
        rw [needAll, Nat.max_eq_right (by omega)]
      rw [h2, h3]
      by_cases hk : maxFuelL l ≤ k + 1
      · rw [if_pos (by omega : maxFuelL l - 1 ≤ k), if_pos hk]
        congr 1
        rw [stepState_map, List.map_map]
        refine List.map_congr_left ?_
        intro s _
        show advanceState (maxFuelL l - 1) (advanceState 1 s) = _
        rw [advance_add]
        congr 1
        omega
      · rw [if_neg (by omega : ¬ maxFuelL l - 1 ≤ k), if_neg (by omega)]

theorem pollN_any (k : Nat) :
    ∀ l : List (FutureState α), l ≠ [] →
      WaitFor.pollN { strategy := Strategy.Any, future_states := l } k =
        if needAny l ≤ k then some (l.map (advanceState (needAny l)))
        else none := by
  induction k with
  | zero =>
    intro l _
    have h1 : 1 ≤ needAny l := le_max_left 1 _
    rw [if_neg (by omega)]
    rfl
  | succ k ih =>
    intro l hne
    rw [pollN_succ, poll_any_eval l hne]
    by_cases h : minFuelL l ≤ 1
    · rw [if_pos h]
      show some (l.map stepState) = _
      have hm : needAny l = 1 := by
        rw [needAny, Nat.max_eq_left h]
      rw [stepState_map, hm, if_pos (by omega : (1 : Nat) ≤ k + 1)]
    · rw [if_neg h]
      show WaitFor.pollN
          { strategy := Strategy.Any,
            future_states := l.map stepState } k = _
      have hne' : l.map stepState ≠ [] := by
        intro hmap
        exact hne (List.map_eq_nil_iff.mp hmap)
      rw [ih (l.map stepState) hne']
      have hM : 2 ≤ minFuelL l := by omega
      have h1 : minFuelL (l.map stepState) = minFuelL l - 1 := by
        rw [stepState_map, minFuelL_map_advance]
      have h2 : needAny (l.map stepState) = minFuelL l - 1 := by
        rw [needAny, h1, Nat.max_eq_right (by omega)]
      have h3 : needAny l = minFuelL l := by
        rw [needAny, Nat.max_eq_right (by omega)]
      rw [h2, h3]
      by_cases hk : minFuelL l ≤ k + 1
      · rw [if_pos (by omega : minFuelL l - 1 ≤ k), if_pos hk]
        congr 1
        rw [stepState_map, List.map_map]
        refine List.map_congr_left ?_
        intro s _
        show advanceState (minFuelL l - 1) (advanceState 1 s) = _
        rw [advance_add]
        congr 1
        omega
      · rw [if_neg (by omega : ¬ minFuelL l - 1 ≤ k), if_neg (by omega)]

theorem pollN_any_nil (k : Nat) :
    WaitFor.pollN
        { strategy := Strategy.Any,
          future_states := ([] : List (FutureState α)) } k = none := by
  induction k with
  | zero => rfl
  | succ k ih =>
    rw [pollN_succ, poll_any_nil]
    exact ih

/-! ### Lemmas about the host failure window -/

theorem failed_fails (h : Host) (now : Nat) :
    (h.failed now).fails = pruneFails h.fails (now - h.fail_timeout) ++ [now] :=
  rfl

theorem failedSeq_fail_timeout (ts : List Nat) : ∀ h : Host,
    (Host.failedSeq h ts).fail_timeout = h.fail_timeout := by
  induction ts with
  | nil => intro h; rfl
  | cons t ts ih =>
    intro h
    show (Host.failedSeq (h.failed t) ts).fail_timeout = _
    rw [ih (h.failed t)]
    rfl

theorem pruneFails_eq_self (l : List Nat) (c : Nat) (h : ∀ t ∈ l, ¬ t < c) :
    pruneFails l c = l := by
  cases l with
  | nil => rfl
  | cons t ts =>
    show (if t < c then pruneFails ts c else t :: ts) = t :: ts
    exact if_neg (h t (List.mem_cons_self t ts))

theorem pruneFails_nil (l : List Nat) (c : Nat) (h : ∀ t ∈ l, t < c) :
    pruneFails l c = [] := by
  induction l with
  | nil => rfl
  | cons t ts ih =>
    show (if t < c then pruneFails ts c else t :: ts) = []
    rw [if_pos (h t (List.mem_cons_self t ts))]
    exact ih (fun u hu => h u (List.mem_cons_of_mem t hu))

theorem pruneFails_ge (l : List Nat) (c : Nat) (hs : l.Sorted (· ≤ ·)) :
    ∀ t ∈ pruneFails l c, c ≤ t := by
  induction l with
  | nil => intro t ht; cases ht
  | cons a l ih =>
    rw [List.sorted_cons] at hs
    intro t ht
    by_cases hac : a < c
    · rw [show pruneFails (a :: l) c = pruneFails l c from if_pos hac] at ht
      exact ih hs.2 t ht
    · rw [show pruneFails (a :: l) c = a :: l from if_neg hac] at ht
      rcases List.mem_cons.mp ht with rfl | htl
      · omega
      · exact le_trans (by omega : c ≤ a) (hs.1 t htl)

/-! ### Lemmas about the round-robin sampler -/

theorem run_succ (s : RoundRobinSampler) (k : Nat) :
    s.run (k + 1) =
      match s.sampleOpt with
      | none => ([], s)
      | some (i, s') => (i :: (s'.run k).1, (s'.run k).2) := rfl

theorem run_none (s : RoundRobinSampler) (h : s.sampleOpt = none) :
    ∀ b, s.run b = ([], s) := by
  intro b
  cases b with
  | zero => rfl
  | succ b => rw [run_succ, h]

theorem run_linear (n : Nat) : ∀ (m c : Nat), c + m ≤ n →
    (RoundRobinSampler.mk n c).run m
      = (List.range' c m, RoundRobinSampler.mk n (c + m)) := by
  intro m
  induction m with
  | zero =>
    intro c _
    simp [RoundRobinSampler.run, List.range']
  | succ m ih =>
    intro c hc
    have hlt : c < n := by omega
    have hso : (RoundRobinSampler.mk n c).sampleOpt
        = some (c, RoundRobinSampler.mk n (c + 1)) := by
      simp [RoundRobinSampler.sampleOpt, hlt]
    rw [run_succ, hso]
    dsimp only
    rw [ih (c + 1) (by omega)]
    rw [List.range'_succ]
    rw [show c + 1 + m = c + (m + 1) from by omega]

theorem run_wrap (n : Nat) (hn : 1 ≤ n) (m : Nat) :
    ((RoundRobinSampler.mk n n).run m).1
      = ((RoundRobinSampler.mk n 0).run m).1 := by
  cases m with
  | zero => rfl
  | succ m =>
    have hne : ¬ n = 0 := by omega
    have h1 : (RoundRobinSampler.mk n n).sampleOpt
        = some (0, RoundRobinSampler.mk n 1) := by
      simp [RoundRobinSampler.sampleOpt, hne]
    have h2 : (RoundRobinSampler.mk n 0).sampleOpt
        = some (0, RoundRobinSampler.mk n 1) := by
      simp [RoundRobinSampler.sampleOpt, (by omega : (0 : Nat) < n)]
    rw [run_succ, run_succ, h1, h2]

theorem run_split (a : Nat) : ∀ (b : Nat) (s : RoundRobinSampler),
    s.run (a + b)
      = ((s.run a).1 ++ ((s.run a).2.run b).1, ((s.run a).2.run b).2) := by
  induction a with
  | zero =>
    intro b s
    simp [RoundRobinSampler.run]
  | succ a ih =>
    intro b s
    rw [show a + 1 + b = (a + b) + 1 from by omega]
    simp only [run_succ]
    cases hso : s.sampleOpt with
    | none =>
      simp only [hso]
      simp [run_none s hso b]
    | some p =>
      obtain ⟨i, s'⟩ := p
      simp only [hso]
      rw [ih b s']
      simp [List.cons_append]

theorem run_cycles (n : Nat) (hn : 1 ≤ n) : ∀ k : Nat,
    ((RoundRobinSampler.mk n 0).run (k * n)).1
      = (List.replicate k (List.range n)).flatten := by
  intro k
  induction k with
  | zero => simp [RoundRobinSampler.run]
  | succ k ih =>
    have hsplit := run_split n (k * n) (RoundRobinSampler.mk n 0)
    have hlin := run_linear n n 0 (by omega)
    rw [show (k + 1) * n = n + k * n from by ring, hsplit, hlin]
    dsimp only
    rw [Nat.zero_add, run_wrap n hn (k * n), ih, List.replicate_succ,
      List.flatten_cons, List.range_eq_range']

theorem rr_new_ok (n : Nat) (s : RoundRobinSampler)
    (h : RoundRobinSampler.new n = .ok s) :
    s = RoundRobinSampler.mk n 0 ∧ 1 ≤ n := by
  cases n with
  | zero => exact absurd h (by simp [RoundRobinSampler.new])
  | succ m =>
    rw [show RoundRobinSampler.new (m + 1)
        = .ok (RoundRobinSampler.mk (m + 1) 0) from rfl] at h
    injection h with h2
    exact ⟨h2.symm, by omega⟩

theorem sampleOpt_some (s : RoundRobinSampler) (hs : 1 ≤ s.length) :
    ∃ i s', s.sampleOpt = some (i, s')
      ∧ i < s.length ∧ s'.length = s.length := by
  by_cases h : s.cursor < s.length
  · exact ⟨s.cursor, { s with cursor := s.cursor + 1 },
      by rw [RoundRobinSampler.sampleOpt, if_pos h], h, rfl⟩
  · have h0 : ¬ s.length = 0 := by omega
    exact ⟨0, { s with cursor := 1 },
      by rw [RoundRobinSampler.sampleOpt, if_neg h, if_neg h0],
      by omega, rfl⟩

/-! ### Lemmas about the weighted sampler -/

theorem weighted_new_ok (ws : List Nat) (d : WeightedIndex)
    (h : WeightedIndex.new ws = .ok d) :
    d.weights = ws ∧ d.total_weight = ws.sum ∧ 0 < ws.sum := by
  cases ws with
  | nil => exact absurd h (by simp [WeightedIndex.new])
  | cons w l =>
    have hunfold : WeightedIndex.new (w :: l)
        = (if (w :: l).sum = 0
            then (.error .AllWeightsZero : Except WeightedError WeightedIndex)
            else .ok { weights := w :: l, total_weight := (w :: l).sum }) := rfl
    by_cases hz : (w :: l).sum = 0
    · rw [hunfold, if_pos hz] at h
      exact absurd h (by simp)
    · rw [hunfold, if_neg hz] at h
      injection h with h2
      rw [← h2]
      exact ⟨rfl, rfl, by omega⟩

theorem pick_lt (ws : List Nat) : ∀ x : Nat, x < ws.sum →
    pick ws x < ws.length := by
  induction ws with
  | nil =>
    intro x hx
    simp at hx
  | cons w l ih =>
    intro x hx
    show (if x < w then 0 else pick l (x - w) + 1) < (w :: l).length
    by_cases hxw : x < w
    · rw [if_pos hxw]
      simp
    · rw [if_neg hxw]
      have hx2 : x - w < l.sum := by
        rw [List.sum_cons] at hx
        omega
      have h3 := ih (x - w) hx2
      simp only [List.length_cons]
      omega

/-! ### Lemmas about the signal channel -/

theorem foldl_send_value (sigs : List Signal) : ∀ (c : WatchState) (v : Signal),
    sigs.getLast? = some v → (sigs.foldl send c).value = v := by
  induction sigs with
  | nil =>
    intro c v hv
    simp at hv
  | cons a rest ih =>
    intro c v hv
    show (rest.foldl send (send c a)).value = v
    cases rest with
    | nil =>
      simp only [List.getLast?_singleton, Option.some.injEq] at hv
      subst hv
      rfl
    | cons b rs =>
      rw [List.getLast?_cons_cons] at hv
      exact ih (send c a) v hv

theorem foldl_send_version (sigs : List Signal) : ∀ c : WatchState,
    (sigs.foldl send c).version = c.version + sigs.length := by
  induction sigs with
  | nil =>
    intro c
    simp
  | cons a rest ih =>
    intro c
    show (rest.foldl send (send c a)).version = _
    rw [ih (send c a)]
    simp [send]
    omega

/-! ### Concrete data used in closed statements -/

/-- A hostname used in concrete checks. -/
def hostName : String := "example.com"

/-- Concrete tasks for the any-strategy check (task at position 2 completes
first). -/
def tasksW : List (SFuture Nat) := [⟨2, 10⟩, ⟨1, 20⟩, ⟨0, 30⟩]

/-- Concrete tasks for the all-strategy check. -/
def tasksAllW : List (SFuture Nat) := [⟨1, 4⟩, ⟨0, 7⟩]

/-! ### The claims -/

/-- Claim C1 (code bug): `next()` is specified to resolve the selected host's
hostname through the Resolver collaborator and to propagate resolution
errors; the code instead never consults the resolver (its `resolve` helper
hardcodes `127.0.0.1` and `Resolver::resolve` is a stub) and unwraps instead
of propagating.  Concretely, with a resolver that fails on every hostname,
`next()` still returns `Ok` with the hardcoded address `127.0.0.1` and the
host's configured port. -/
theorem upstream_next_ignores_resolver :
    (UpstreamImpl.next
        { hosts := [Host.new hostName 8080 0],
          resolver := { resolveFn := fun _ => .error ResolveError.error },
          sampler := { length := 1, cursor := 0 } }).1
      = NextResult.ok { ip := IpAddr.v4 127 0 0 1, port := 8080 } := rfl

/-- Claim C4 (amended): for a Host starting from an empty window, after N
failure reports at nondecreasing times that all lie within `fail_timeout` of
one another, the window holds exactly those N entries; a report made more
than `fail_timeout` after every recorded entry leaves exactly 1 entry; and
after every report on a sorted window (as the min-heap guarantees) no entry
is older than `now - fail_timeout`. -/
theorem host_failure_window :
    (∀ (h : Host) (ts : List Nat), h.fails = [] → ts.Sorted (· ≤ ·) →
        (∀ t ∈ ts, ∀ u ∈ ts, t - u ≤ h.fail_timeout) →
        (Host.failedSeq h ts).fails = ts)
    ∧ (∀ (h : Host) (now : Nat),
        (∀ t ∈ h.fails, t + h.fail_timeout < now) →
        (h.failed now).fails = [now])
    ∧ (∀ (h : Host) (now : Nat), h.fails.Sorted (· ≤ ·) →
        ∀ t ∈ (h.failed now).fails, now - h.fail_timeout ≤ t) := by
  refine ⟨?_, ?_, ?_⟩
  · intro h ts
    induction ts using List.reverseRecOn with
    | nil =>
      intro he _ _
      exact he
    | append_singleton ts t ih =>
      intro he hsort hspan
      have hts : (Host.failedSeq h ts).fails = ts :=
        ih he (List.Pairwise.sublist (List.sublist_append_left ts [t]) hsort)
          (fun a ha b hb =>
            hspan a (List.mem_append_left _ ha) b (List.mem_append_left _ hb))
      have hstep : Host.failedSeq h (ts ++ [t])
          = (Host.failedSeq h ts).failed t := by
        rw [Host.failedSeq, Host.failedSeq, List.foldl_append]
        rfl
      rw [hstep, failed_fails, hts, failedSeq_fail_timeout]
      have hpr : pruneFails ts (t - h.fail_timeout) = ts := by
        refine pruneFails_eq_self ts _ ?_
        intro u hu
        have hsp := hspan t (by simp) u (List.mem_append_left _ hu)
        omega
      rw [hpr]
  · intro h now hall
    rw [failed_fails, pruneFails_nil h.fails _ (fun t ht => by
      have h2 := hall t ht
      omega)]
    rfl
  · intro h now hs t ht
    rw [failed_fails] at ht
    rcases List.mem_append.mp ht with h1 | h1
    · exact pruneFails_ge h.fails _ hs t h1
    · rw [List.mem_singleton] at h1
      subst h1
      omega

/-- Claim C4, counterexample to the claim as stated: with the default
`fail_timeout = 30`, three reports at times 0, 20, 40 — each consecutive
pair spaced 20 < 30 apart — leave a window of 2 entries, not 3 (the first
entry is pruned at the third report because 0 < 40 - 30). -/
theorem host_failure_window_counterexample :
    (Host.new hostName 8080 0).fail_timeout = 30
    ∧ 20 - 0 < 30 ∧ 40 - 20 < 30
    ∧ (Host.failedSeq (Host.new hostName 8080 0) [0, 20, 40]).fails
        = [20, 40]
    ∧ ¬ (Host.failedSeq (Host.new hostName 8080 0) [0, 20, 40]).fails.length
        = 3 :=
  ⟨rfl, by omega, by omega, rfl, by decide⟩

theorem host_failure_window_witness :
    (Host.failedSeq (Host.new hostName 8080 0) [5, 20, 35]).fails
        = [5, 20, 35]
    ∧ (((Host.new hostName 8080 0).failed 5).failed 100).fails = [100]
    ∧ (∀ t ∈ ((Host.new hostName 8080 0).failed 50).fails,
        50 - (Host.new hostName 8080 0).fail_timeout ≤ t) :=
  ⟨host_failure_window.1 (Host.new hostName 8080 0) [5, 20, 35] rfl
      (by decide) (by decide),
   host_failure_window.2.1 ((Host.new hostName 8080 0).failed 5) 100
      (by decide),
   host_failure_window.2.2 (Host.new hostName 8080 0) 50 (by decide)⟩

/-- Claim C5: after any nonempty sequence of sends on a watch channel, a
receiver that was up to date before the sends (and hence may have missed all
the intermediate values) completes a single `receive()` returning exactly
the latest sent value, and a further `receive()` without new sends suspends:
no intermediate superseded value is ever observed. -/
theorem signal_latest_wins (c : WatchState) (sigs : List Signal)
    (r : Receiver) (v : Signal) (hv : sigs.getLast? = some v)
    (hseen : r.seen ≤ c.version) :
    receive (sigs.foldl send c) r
        = some (v, { seen := (sigs.foldl send c).version })
    ∧ receive (sigs.foldl send c)
        { seen := (sigs.foldl send c).version } = none := by
  have hlen : 1 ≤ sigs.length := by
    cases sigs with
    | nil => simp at hv
    | cons a l => simp
  have hver := foldl_send_version sigs c
  have hval := foldl_send_value sigs c v hv
  constructor
  · rw [receive,
      if_pos (show r.seen < (sigs.foldl send c).version by omega), hval]
  · rw [receive, if_neg (by omega :
      ¬ (sigs.foldl send c).version < (sigs.foldl send c).version)]

theorem signal_latest_wins_witness :
    receive ([Signal.Reload, Signal.Stop].foldl send
        { value := Signal.Init, version := 0 }) { seen := 0 }
      = some (Signal.Stop,
          { seen := ([Signal.Reload, Signal.Stop].foldl send
              { value := Signal.Init, version := 0 }).version })
    ∧ receive ([Signal.Reload, Signal.Stop].foldl send
          { value := Signal.Init, version := 0 })
        { seen := ([Signal.Reload, Signal.Stop].foldl send
            { value := Signal.Init, version := 0 }).version } = none :=
  signal_latest_wins { value := Signal.Init, version := 0 }
    [Signal.Reload, Signal.Stop] { seen := 0 } Signal.Stop rfl (by decide)

/-- Claim C6: a freshly constructed `RoundRobinSampler(n)` (n ≥ 1), sampled
`k * n` times (k ≥ 1), yields exactly k full cycles of the indices
`0, 1, …, n-1` in order. -/
theorem round_robin_cycles (n k : Nat) (s : RoundRobinSampler)
    (hn : 1 ≤ n) (hk : 1 ≤ k) (hnew : RoundRobinSampler.new n = .ok s) :
    (s.run (k * n)).1 = (List.replicate k (List.range n)).flatten := by
  obtain ⟨hs, hn2⟩ := rr_new_ok n s hnew
  subst hs
  exact run_cycles n hn k

theorem round_robin_cycles_witness :
    ((RoundRobinSampler.mk 3 0).run (2 * 3)).1
        = (List.replicate 2 (List.range 3)).flatten
    ∧ (List.replicate 2 (List.range 3)).flatten = [0, 1, 2, 0, 1, 2] :=
  ⟨round_robin_cycles 3 2 (RoundRobinSampler.mk 3 0) (by decide) (by decide)
      rfl,
   by decide⟩

/-- Claim C7: `RoundRobinSampler::new` fails with the zero-length error
exactly on length 0 and succeeds for every length ≥ 1; `WeightedSampler::new`
fails on an empty weight list (`NoItem`) and on a zero total weight, and
succeeds for every weight list with positive total. -/
theorem sampler_construction (n : Nat) (hn : 1 ≤ n) (ws : List Nat)
    (hw : 0 < ws.sum) :
    RoundRobinSampler.new 0 = .error .ZeroLength
    ∧ RoundRobinSampler.new n = .ok { length := n, cursor := 0 }
    ∧ WeightedSampler.new [] = .error .NoItem
    ∧ (∀ ws' : List Nat, ws'.sum = 0 →
        ∃ e, WeightedSampler.new ws' = .error e)
    ∧ WeightedSampler.new ws
        = .ok { dist := { weights := ws, total_weight := ws.sum } } := by
  refine ⟨rfl, ?_, rfl, ?_, ?_⟩
  · cases n with
    | zero => omega
    | succ m => rfl
  · intro ws' hsum
    cases ws' with
    | nil => exact ⟨.NoItem, rfl⟩
    | cons w l =>
      refine ⟨.AllWeightsZero, ?_⟩
      have hidx : WeightedIndex.new (w :: l) = .error .AllWeightsZero := by
        rw [show WeightedIndex.new (w :: l)
            = (if (w :: l).sum = 0
                then (.error .AllWeightsZero :
                    Except WeightedError WeightedIndex)
                else .ok { weights := w :: l, total_weight := (w :: l).sum })
            from rfl, if_pos hsum]
      simp only [WeightedSampler.new, hidx]
  · cases ws with
    | nil => simp at hw
    | cons w l =>
      have hnz : ¬ (w :: l).sum = 0 := by omega
      have hidx : WeightedIndex.new (w :: l)
          = .ok { weights := w :: l, total_weight := (w :: l).sum } := by
        rw [show WeightedIndex.new (w :: l)
            = (if (w :: l).sum = 0
                then (.error .AllWeightsZero :
                    Except WeightedError WeightedIndex)
                else .ok { weights := w :: l, total_weight := (w :: l).sum })
            from rfl, if_neg hnz]
      simp only [WeightedSampler.new, hidx]

theorem sampler_construction_witness :
    RoundRobinSampler.new 2 = .ok { length := 2, cursor := 0 }
    ∧ (∃ e, WeightedSampler.new [0, 0] = .error e)
    ∧ WeightedSampler.new [0, 3]
        = .ok { dist := { weights := [0, 3], total_weight := [0, 3].sum } } :=
  ⟨(sampler_construction 2 (by decide) [0, 3] (by decide)).2.1,
   (sampler_construction 2 (by decide) [0, 3] (by decide)).2.2.2.1 [0, 0] rfl,
   (sampler_construction 2 (by decide) [0, 3] (by decide)).2.2.2.2⟩

/-- Claim C8: a round-robin sampler of positive length always samples an
index in `[0, n)` (so the unwrap inside `sample` never fires, and the
sampler state keeps its length); a constructed weighted index always samples
an index in `[0, n)`; and under the invariant that the upstream's sampler
cardinality equals its host-list length (with a nonempty host list), the
out-of-range `unreachable!` branch of `next()` is never taken: `next()`
returns `ok`. -/
theorem sample_index_in_range (s : RoundRobinSampler) (hs : 1 ≤ s.length)
    (ws : List Nat) (d : WeightedIndex) (x : Nat)
    (hd : WeightedIndex.new ws = .ok d) (hx : x < d.total_weight)
    (u : UpstreamImpl RoundRobinSampler)
    (hcard : u.sampler.length = u.hosts.length)
    (hne : 1 ≤ u.sampler.length) :
    (∃ i s', s.sampleOpt = some (i, s')
      ∧ i < s.length ∧ s'.length = s.length)
    ∧ d.sample x < ws.length
    ∧ (∃ addr u', u.next = (NextResult.ok addr, u')) := by
  refine ⟨sampleOpt_some s hs, ?_, ?_⟩
  · obtain ⟨hwts, htot, hpos⟩ := weighted_new_ok ws d hd
    rw [WeightedIndex.sample, hwts]
    exact pick_lt ws x (by omega)
  · obtain ⟨i, s', hso, hi, hlen⟩ := sampleOpt_some u.sampler hne
    have hi2 : i < u.hosts.length := by omega
    have hhost : u.hosts.get? i = some (u.hosts.get ⟨i, hi2⟩) :=
      List.get?_eq_get hi2
    refine ⟨{ ip := IpAddr.v4 127 0 0 1, port := (u.hosts.get ⟨i, hi2⟩).port },
      { u with sampler := s' }, ?_⟩
    simp only [UpstreamImpl.next, hso, hhost, UpstreamImpl.resolve]

theorem sample_index_in_range_witness :
    (∃ i s', (RoundRobinSampler.mk 2 1).sampleOpt = some (i, s')
      ∧ i < (RoundRobinSampler.mk 2 1).length
      ∧ s'.length = (RoundRobinSampler.mk 2 1).length)
    ∧ (WeightedIndex.mk [1, 2] 3).sample 2 < [1, 2].length
    ∧ (∃ addr u', UpstreamImpl.next
        { hosts := [Host.new hostName 8080 0],
          resolver := { resolveFn := fun _ => .ok [IpAddr.v4 10 0 0 1] },
          sampler := RoundRobinSampler.mk 1 0 }
        = (NextResult.ok addr, u')) :=
  sample_index_in_range (RoundRobinSampler.mk 2 1) (by decide)
    [1, 2] (WeightedIndex.mk [1, 2] 3) 2 rfl (by decide)
    { hosts := [Host.new hostName 8080 0],
      resolver := { resolveFn := fun _ => .ok [IpAddr.v4 10 0 0 1] },
      sampler := RoundRobinSampler.mk 1 0 } rfl (by decide)

/-- Claim C9: two Hosts are equal (per the source `PartialEq`) iff their
(hostname, port, weight, max_fails, fail_timeout) fields all match, and the
comparison is unchanged by any difference in the dynamic health state. -/
theorem host_eq_iff (a b : Host) :
    (Host.eq a b = true ↔
      (a.hostname = b.hostname ∧ a.port = b.port ∧ a.weight = b.weight
        ∧ a.max_fails = b.max_fails ∧ a.fail_timeout = b.fail_timeout))
    ∧ (∀ (f₁ f₂ : List Nat) (l₁ l₂ : Nat),
        Host.eq { a with fails := f₁, last_fail := l₁ }
            { b with fails := f₂, last_fail := l₂ }
          = Host.eq a b) := by
  constructor
  · rw [Host.eq]
    simp [Bool.and_eq_true, beq_iff_eq, and_assoc]
  · intro f₁ f₂ l₁ l₂
    rfl

/-- Claim C3: the all-strategy combinator over any finite list of tasks
resolves exactly at the first poll at which every task is ready (pending on
every earlier poll), returning the results in original task order; over zero
tasks it resolves immediately with an empty result. -/
theorem wait_for_all_resolves (α : Type) (tasks : List (SFuture α)) :
    (wait_for_all (as_futures_states tasks)).pollN
        (needAll (as_futures_states tasks))
      = some (tasks.map (fun t => FutureState.Ready t.val))
    ∧ (∀ k, k < needAll (as_futures_states tasks) →
        (wait_for_all (as_futures_states tasks)).pollN k = none)
    ∧ (wait_for_all (as_futures_states ([] : List (SFuture α)))).pollN 1
        = some [] := by
  have hlit : wait_for_all (as_futures_states tasks)
      = { strategy := Strategy.All,
          future_states := as_futures_states tasks } := rfl
  refine ⟨?_, ?_, ?_⟩
  · rw [hlit, pollN_all, if_pos (Nat.le_refl _)]
    congr 1
    rw [show as_futures_states tasks = tasks.map FutureState.Pending from rfl,
      List.map_map]
    refine List.map_congr_left ?_
    intro t ht
    have hmem : FutureState.Pending t ∈ as_futures_states tasks :=
      List.mem_map_of_mem _ ht
    have h1 := mem_le_maxFuelL _ _ hmem
    have h2 : maxFuelL (as_futures_states tasks)
        ≤ needAll (as_futures_states tasks) := le_max_right 1 _
    have hle : stateFuel (FutureState.Pending t)
        ≤ needAll (as_futures_states tasks) := le_trans h1 h2
    show advanceState (needAll (as_futures_states tasks))
        (FutureState.Pending t) = FutureState.Ready t.val
    rw [advance_of_fuel_le _ _ hle]
    rfl
  · intro k hk
    rw [hlit, pollN_all, if_neg (by omega)]
  · rw [show wait_for_all (as_futures_states ([] : List (SFuture α)))
        = { strategy := Strategy.All,
            future_states := ([] : List (FutureState α)) } from rfl,
      pollN_all,
      if_pos (show needAll ([] : List (FutureState α)) ≤ 1 from
        Nat.le_refl 1)]
    rfl

theorem wait_for_all_resolves_witness :
    (wait_for_all (as_futures_states tasksAllW)).pollN
        (needAll (as_futures_states tasksAllW))
      = some (tasksAllW.map (fun t => FutureState.Ready t.val))
    ∧ (wait_for_all (as_futures_states ([] : List (SFuture Nat)))).pollN 1
        = some [] :=
  ⟨(wait_for_all_resolves Nat tasksAllW).1,
   (wait_for_all_resolves Nat tasksAllW).2.2⟩

/-- Claim C2: the any-strategy combinator over a nonempty list of tasks
resolves exactly at the first poll at which at least one task is ready,
returning the entire snapshot (one entry per task at its original position,
ready tasks holding their results, unfinished tasks still pending); the
snapshot has at least one ready entry and the original length; and
re-joining that snapshot with the all strategy and letting the remaining
tasks finish yields all results in the original task order. -/
theorem wait_for_any_resume (α : Type) (tasks : List (SFuture α))
    (hne : tasks ≠ []) :
    (wait_for_any (as_futures_states tasks)).pollN
        (needAny (as_futures_states tasks))
      = some (anySnapshot tasks)
    ∧ (∀ k, k < needAny (as_futures_states tasks) →
        (wait_for_any (as_futures_states tasks)).pollN k = none)
    ∧ 0 < readyCnt (anySnapshot tasks)
    ∧ (anySnapshot tasks).length = tasks.length
    ∧ (wait_for_all (anySnapshot tasks)).pollN (needAll (anySnapshot tasks))
        = some (tasks.map (fun t => FutureState.Ready t.val)) := by
  have hne' : as_futures_states tasks ≠ [] := by
    rw [show as_futures_states tasks = tasks.map FutureState.Pending from rfl]
    intro hmap
    exact hne (List.map_eq_nil_iff.mp hmap)
  have hlit : wait_for_any (as_futures_states tasks)
      = { strategy := Strategy.Any,
          future_states := as_futures_states tasks } := rfl
  refine ⟨?_, ?_, ?_, ?_, ?_⟩
  · rw [hlit, pollN_any _ _ hne', if_pos (Nat.le_refl _)]
    rfl
  · intro k hk
    rw [hlit, pollN_any _ _ hne', if_neg (by omega)]
  · rw [readyCnt_pos_iff]
    obtain ⟨s, hs, hfuel⟩ := minFuelL_attained (as_futures_states tasks) hne'
    refine ⟨advanceState (needAny (as_futures_states tasks)) s,
      List.mem_map_of_mem _ hs, ?_⟩
    rw [stateFuel_advance, hfuel]
    have h3 : minFuelL (as_futures_states tasks)
        ≤ needAny (as_futures_states tasks) := le_max_right 1 _
    omega
  · rw [show anySnapshot tasks
        = (as_futures_states tasks).map
            (advanceState (needAny (as_futures_states tasks))) from rfl,
      List.length_map,
      show as_futures_states tasks = tasks.map FutureState.Pending from rfl,
      List.length_map]
  · rw [show wait_for_all (anySnapshot tasks)
        = { strategy := Strategy.All,
            future_states := anySnapshot tasks } from rfl,
      pollN_all, if_pos (Nat.le_refl _)]
    congr 1
    set nAll := needAll (anySnapshot tasks)
    have h2 : maxFuelL (anySnapshot tasks) ≤ nAll := le_max_right 1 _
    have hA : maxFuelL (anySnapshot tasks)
        = maxFuelL (tasks.map FutureState.Pending)
            - needAny (tasks.map FutureState.Pending) := by
      rw [show anySnapshot tasks
          = (tasks.map FutureState.Pending).map
              (advanceState (needAny (tasks.map FutureState.Pending)))
          from rfl]
      exact maxFuelL_map_advance _ _
    rw [show anySnapshot tasks
        = (tasks.map FutureState.Pending).map
            (advanceState (needAny (tasks.map FutureState.Pending)))
        from rfl, List.map_map, List.map_map]
    refine List.map_congr_left ?_
    intro t ht
    have hmem : FutureState.Pending t ∈ tasks.map FutureState.Pending :=
      List.mem_map_of_mem _ ht
    have h1 := mem_le_maxFuelL _ _ hmem
    have hle : stateFuel (FutureState.Pending t)
        ≤ needAny (tasks.map FutureState.Pending) + nAll := by
      omega
    show advanceState nAll
        (advanceState (needAny (tasks.map FutureState.Pending))
          (FutureState.Pending t)) = FutureState.Ready t.val
    rw [advance_add, advance_of_fuel_le _ _ hle]
    rfl

theorem wait_for_any_resume_witness :
    (wait_for_any (as_futures_states tasksW)).pollN
        (needAny (as_futures_states tasksW))
      = some (anySnapshot tasksW)
    ∧ 0 < readyCnt (anySnapshot tasksW)
    ∧ (wait_for_all (anySnapshot tasksW)).pollN (needAll (anySnapshot tasksW))
        = some (tasksW.map (fun t => FutureState.Ready t.val)) :=
  ⟨(wait_for_any_resume Nat tasksW (by decide)).1,
   (wait_for_any_resume Nat tasksW (by decide)).2.2.1,
   (wait_for_any_resume Nat tasksW (by decide)).2.2.2.2⟩

/-- Claim C10: the any-strategy combinator over an empty task collection
never resolves (every poll returns pending), while the all-strategy
combinator over an empty collection resolves on the first poll with an
empty result. -/
theorem wait_for_any_empty_pending (α : Type) :
    (∀ k, (wait_for_any (as_futures_states ([] : List (SFuture α)))).pollN k
        = none)
    ∧ (wait_for_all (as_futures_states ([] : List (SFuture α)))).pollN 1
        = some [] := by
  constructor
  · intro k
    exact pollN_any_nil k
  · rw [show wait_for_all (as_futures_states ([] : List (SFuture α)))
        = { strategy := Strategy.All,
            future_states := ([] : List (FutureState α)) } from rfl,
      pollN_all,
      if_pos (show needAll ([] : List (FutureState α)) ≤ 1 from
        Nat.le_refl 1)]
    rfl

end Proximity
